import Mathlib

/-!
Shallow embedding of the mig2schema schema-model pipeline:
the migration locator (`ParseMigrations` in `migrations.go`), the data
model (`Table`, `Column`, `Index` in the providers package), the type
mapper (`mapDataType`) and the two renderers (`FormatSchemaInfo`,
`FormatSchemaSQL`).

Go's `sql.NullString` / `sql.NullInt64` become `Option String` /
`Option Int`; Go maps become association lists with overwrite-on-insert;
the filesystem walk becomes an explicit listing of directory entries.
-/

namespace Mig2Schema

/-- Go `strings.ToUpper`, character-wise (ASCII, as used by the mapper). -/
def toUpperGo (s : String) : String := ⟨s.data.map Char.toUpper⟩

/-- Go `strings.ToLower`, character-wise (ASCII, as used by the renderer). -/
def toLowerGo (s : String) : String := ⟨s.data.map Char.toLower⟩

/-- `Column` from the providers package: `sql.NullString`/`sql.NullInt64`
fields become `Option`s. -/
structure Column where
  Name : String
  DataType : String
  IsNullable : Bool
  DefaultValue : Option String
  IsPrimaryKey : Bool
  CharacterLength : Option Int
  NumericPrecision : Option Int
  NumericScale : Option Int
  deriving DecidableEq, Repr

/-- `Index` from the providers package. -/
structure Index where
  Name : String
  Columns : List String
  IsUnique : Bool
  deriving DecidableEq, Repr

/-- `Table` from the providers package. -/
structure Table where
  Name : String
  Columns : List Column
  Indexes : List Index
  deriving DecidableEq, Repr

/-- `mapDataType` from the providers package: the switch on the raw
`data_type` string, with `fmt.Sprintf` calls rendered as string
concatenation of decimal integers. -/
def mapDataType (col : Column) : String :=
  match col.DataType with
  | "character varying" =>
    match col.CharacterLength with
    | some n => "VARCHAR(" ++ toString n ++ ")"
    | none => "VARCHAR(255)"
  | "character" | "char" =>
    match col.CharacterLength with
    | some n => "CHAR(" ++ toString n ++ ")"
    | none => "CHAR"
  | "text" => "TEXT"
  | "integer" => "INTEGER"
  | "bigint" => "BIGINT"
  | "smallint" => "SMALLINT"
  | "serial" => "SERIAL"
  | "bigserial" => "BIGSERIAL"
  | "smallserial" => "SMALLSERIAL"
  | "boolean" => "BOOLEAN"
  | "real" => "REAL"
  | "double precision" => "DOUBLE PRECISION"
  | "numeric" | "decimal" =>
    match col.NumericPrecision, col.NumericScale with
    | some p, some s => "DECIMAL(" ++ toString p ++ "," ++ toString s ++ ")"
    | some p, none => "DECIMAL(" ++ toString p ++ ")"
    | none, _ => "DECIMAL"
  | "money" => "MONEY"
  | "timestamp without time zone" => "TIMESTAMP"
  | "timestamp with time zone" => "TIMESTAMPTZ"
  | "date" => "DATE"
  | "time without time zone" => "TIME"
  | "time with time zone" => "TIMETZ"
  | "interval" => "INTERVAL"
  | "uuid" => "UUID"
  | "json" => "JSON"
  | "jsonb" => "JSONB"
  | "xml" => "XML"
  | "bytea" => "BYTEA"
  | "bit" => "BIT"
  | "varbit" | "bit varying" => "VARBIT"
  | "cidr" => "CIDR"
  | "inet" => "INET"
  | "macaddr" => "MACADDR"
  | "tsvector" => "TSVECTOR"
  | "tsquery" => "TSQUERY"
  | _ => toUpperGo col.DataType

/-- Concatenation of a list of strings, as accumulated by a
`strings.Builder` loop. -/
def concatAll : List String → String
  | [] => ""
  | x :: rest => x ++ concatAll rest

/-- Go `strings.Join`. -/
def intercalateGo (sep : String) : List String → String
  | [] => ""
  | [x] => x
  | x :: rest => x ++ sep ++ intercalateGo sep rest

/-- One column line of `FormatSchemaInfo`: the
`fmt.Sprintf("  - %s %s %s%s%s\n", ...)` call. -/
def infoColumnLine (col : Column) : String :=
  "  - " ++ col.Name ++ " " ++ mapDataType col ++ " "
    ++ (if col.IsNullable then "NULL" else "NOT NULL")
    ++ (match col.DefaultValue with
        | some d => " DEFAULT " ++ d
        | none => "")
    ++ (if col.IsPrimaryKey then " (PRIMARY KEY)" else "")
    ++ "\n"

/-- One index line of `FormatSchemaInfo`: the
`fmt.Sprintf("  - %s on (%s)%s\n", ...)` call. -/
def infoIndexLine (idx : Index) : String :=
  "  - " ++ idx.Name ++ " on (" ++ intercalateGo ", " idx.Columns ++ ")"
    ++ (if idx.IsUnique then " (UNIQUE)" else "")
    ++ "\n"

/-- The body of the per-table loop of `FormatSchemaInfo`. -/
def formatTableInfo (t : Table) : String :=
  "Table: " ++ t.Name ++ "\n" ++ "Columns:\n"
    ++ concatAll (t.Columns.map infoColumnLine)
    ++ (if t.Indexes.isEmpty then ""
        else "Indexes:\n" ++ concatAll (t.Indexes.map infoIndexLine))
    ++ "\n"

/-- `FormatSchemaInfo` from the providers package: the builder
accumulates one block per table. -/
def FormatSchemaInfo (tables : List Table) : String :=
  concatAll (tables.map formatTableInfo)

/-- One column definition of `FormatSchemaSQL`: the inner `colDef`
builder. -/
def sqlColumnDef (col : Column) : String :=
  "    " ++ col.Name ++ " " ++ toLowerGo (mapDataType col)
    ++ (if col.IsNullable then "" else " not null")
    ++ (match col.DefaultValue with
        | some d => " default " ++ d
        | none => "")

/-- The per-table column loop of `FormatSchemaSQL`, accumulating
`columnDefs` and `primaryKeys` exactly as the Go loop appends to its two
slices. -/
def sqlColumnAcc : List Column → List String × List String → List String × List String
  | [], acc => acc
  | col :: rest, (defs, pks) =>
    sqlColumnAcc rest
      (defs ++ [sqlColumnDef col],
       if col.IsPrimaryKey then pks ++ [col.Name] else pks)

/-- One index statement of `FormatSchemaSQL`: the
`fmt.Sprintf("create %sindex %s on %s (%s);\n", ...)` call. -/
def sqlIndexLine (tableName : String) (idx : Index) : String :=
  "create " ++ (if idx.IsUnique then "unique " else "") ++ "index "
    ++ idx.Name ++ " on " ++ tableName ++ " ("
    ++ intercalateGo ", " idx.Columns ++ ");\n"

/-- The body of the per-table loop of `FormatSchemaSQL`. -/
def formatTableSQL (t : Table) : String :=
  let acc := sqlColumnAcc t.Columns ([], [])
  "create table " ++ t.Name ++ " (\n"
    ++ intercalateGo ",\n" acc.1
    ++ (if acc.2.isEmpty then ""
        else ",\n    primary key (" ++ intercalateGo ", " acc.2 ++ ")")
    ++ "\n);\n\n"
    ++ concatAll (t.Indexes.map (sqlIndexLine t.Name))
    ++ (if t.Indexes.isEmpty then "" else "\n")

/-- `FormatSchemaSQL` from the providers package. -/
def FormatSchemaSQL (tables : List Table) : String :=
  concatAll (tables.map formatTableSQL)

/-- Go `strings.HasSuffix`, character-wise. -/
def endsWithGo (s suf : String) : Bool :=
  suf.data.isSuffixOf s.data

/-- Go `strings.TrimSuffix`. -/
def trimSuffixGo (s suf : String) : String :=
  if endsWithGo s suf then ⟨s.data.take (s.data.length - suf.data.length)⟩ else s

/-- One directory entry as seen by the `filepath.WalkDir` callback:
the entry name (`d.Name()`), the full path, whether it is a directory,
and the error (if any) the walk reports for it. -/
structure DirEntry where
  name : String
  path : String
  isDir : Bool
  err : Option String
  deriving DecidableEq, Repr

/-- Assignment `m[k] = v` of a Go `map[string]string`, on an association
list: overwrite the binding of `k` if present, else append it. -/
def insertMap (m : List (String × String)) (k v : String) : List (String × String) :=
  match m with
  | [] => [(k, v)]
  | (k0, v0) :: rest =>
    if k0 = k then (k, v) :: rest else (k0, v0) :: insertMap rest k v

/-- Go map lookup `m[k]` together with the `exists` flag. -/
def lookupMap (m : List (String × String)) (k : String) : Option String :=
  match m with
  | [] => none
  | (k0, v0) :: rest => if k0 = k then some v0 else lookupMap rest k

/-- The `filepath.WalkDir` callback of `ParseMigrations`, folded over the
walk's entry sequence: an entry error aborts the walk; directories are
skipped; `.up.sql` / `.down.sql` files are recorded under their trimmed
base name (later entries overwrite earlier ones, as in a Go map). -/
def walkCollect : List DirEntry → List (String × String) × List (String × String) →
    Except String (List (String × String) × List (String × String))
  | [], acc => .ok acc
  | e :: rest, (ups, downs) =>
    match e.err with
    | some msg => .error msg
    | none =>
      if e.isDir then walkCollect rest (ups, downs)
      else if endsWithGo e.name ".up.sql" then
        walkCollect rest (insertMap ups (trimSuffixGo e.name ".up.sql") e.path, downs)
      else if endsWithGo e.name ".down.sql" then
        walkCollect rest (ups, insertMap downs (trimSuffixGo e.name ".down.sql") e.path)
      else walkCollect rest (ups, downs)

/-- `Migration` from `migrations.go`; the zero-value `DownFile` string
standing for "no down file" becomes an `Option`. -/
structure Migration where
  Name : String
  UpFile : String
  DownFile : Option String
  deriving DecidableEq, Repr

/-- Lexicographic `<` on character lists: the character-wise model of
Go's byte-wise string comparison. -/
def ltChars : List Char → List Char → Bool
  | [], [] => false
  | [], _ :: _ => true
  | _ :: _, [] => false
  | a :: as, b :: bs => if a < b then true else if b < a then false else ltChars as bs

/-- Go's `<` on strings, as used by the `sort.Slice` comparator. -/
def ltStringGo (a b : String) : Bool := ltChars a.data b.data

/-- Ordered insertion by `Name`, the helper of `sortByName`. -/
def insertByName (m : Migration) : List Migration → List Migration
  | [] => [m]
  | m0 :: rest =>
    if ltStringGo m0.Name m.Name then m0 :: insertByName m rest else m :: m0 :: rest

/-- The `sort.Slice(migrations, ...Name < ...Name)` call of
`ParseMigrations`, modelled as insertion sort by `Name`: the names are
distinct map keys, so every sort by name yields the same sequence. -/
def sortByName : List Migration → List Migration
  | [] => []
  | m :: rest => insertByName m (sortByName rest)

/-- `ParseMigrations` from `migrations.go`, as a pure function of the
walk's entry listing. Go iterates the `upFiles` map in unspecified order
and then sorts by `Name`; since the map keys are distinct, the sorted
result is the same whatever the iteration order, so the model builds the
records in insertion order and sorts by name. -/
def ParseMigrations (entries : List DirEntry) : Except String (List Migration) :=
  match walkCollect entries ([], []) with
  | .error e => .error ("failed to walk migration directory: " ++ e)
  | .ok (ups, downs) =>
    .ok (sortByName (ups.map fun p =>
          { Name := p.1, UpFile := p.2, DownFile := lookupMap downs p.1 : Migration }))

/-- `s` ends in the literal tail `x`. -/
def EndsIn (s x : String) : Prop := ∃ u, s = u ++ x

/-- The keys of an association-list map, in insertion order. -/
def mapKeys (m : List (String × String)) : List String := m.map Prod.fst

/-- The walk callback classifies `e` as an up-migration file. -/
def upEntry (e : DirEntry) : Bool := !e.isDir && endsWithGo e.name ".up.sql"

/-- The walk callback classifies `e` as a down-migration file (the
`else if` branch: not a directory and not an up-file). -/
def downEntry (e : DirEntry) : Bool :=
  !e.isDir && !endsWithGo e.name ".up.sql" && endsWithGo e.name ".down.sql"

/-- Base name of an up-file entry. -/
def upBase (e : DirEntry) : String := trimSuffixGo e.name ".up.sql"

/-- Base name of a down-file entry. -/
def downBase (e : DirEntry) : String := trimSuffixGo e.name ".down.sql"

/-- Some entry of the listing is an up-file with base name `b`. -/
def hasUpFile (entries : List DirEntry) (b : String) : Prop :=
  ∃ e ∈ entries, upEntry e = true ∧ upBase e = b

/-- Some entry of the listing is a down-file with base name `b`. -/
def hasDownFile (entries : List DirEntry) (b : String) : Prop :=
  ∃ e ∈ entries, downEntry e = true ∧ downBase e = b

/-- The list of raw type strings that have a fixed mapping rule in
`mapDataType` (every non-default case of the switch). -/
def coveredTypes : List String :=
  ["character varying", "character", "char", "text", "integer", "bigint", "smallint",
   "serial", "bigserial", "smallserial", "boolean", "real", "double precision",
   "numeric", "decimal", "money", "timestamp without time zone",
   "timestamp with time zone", "date", "time without time zone",
   "time with time zone", "interval", "uuid", "json", "jsonb", "xml", "bytea",
   "bit", "varbit", "bit varying", "cidr", "inet", "macaddr", "tsvector", "tsquery"]

/-- The string `x` occurs contiguously inside `s`. -/
def Occurs (s x : String) : Prop := ∃ p q, s = p ++ x ++ q

/-- The raw types the spec calls integer-like: each maps one-to-one to a
fixed upper-case name, ignoring the length/precision/scale fields. -/
def integerLikeTypes : List String :=
  ["integer", "bigint", "smallint", "serial", "bigserial", "smallserial",
   "real", "double precision", "money", "boolean"]

/-- A column with an empty raw type string. -/
def colEmptyType : Column := ⟨"c", "", true, none, false, none, none, none⟩

/-- A column with an unrecognized raw type string. -/
def colUnknown : Column := ⟨"c", "unknown_type", true, none, false, none, none, none⟩

/-- A varchar column of length 100. -/
def colV100 : Column := ⟨"name", "character varying", true, none, false, some 100, none, none⟩

/-- A varchar column without a length. -/
def colVnone : Column := ⟨"name", "character varying", true, none, false, none, none, none⟩

/-- A primary-key integer column. -/
def colId : Column := ⟨"id", "integer", false, none, true, none, none, none⟩

/-- The same integer column with spurious length/precision/scale. -/
def colIdLen : Column := ⟨"id", "integer", false, none, true, some 42, some 7, some 3⟩

/-- A demo table with a primary key, a varchar column and one index. -/
def demoTable : Table := ⟨"users", [colId, colV100], [⟨"idx_users_name", ["name"], false⟩]⟩

/-- A demo walk listing: up/down pairs in two orders plus noise. -/
def demoEntries : List DirEntry :=
  [⟨"migrations", "migrations", true, none⟩,
   ⟨"002_b.up.sql", "migrations/002_b.up.sql", false, none⟩,
   ⟨"001_a.up.sql", "migrations/001_a.up.sql", false, none⟩,
   ⟨"001_a.down.sql", "migrations/001_a.down.sql", false, none⟩,
   ⟨"003_c.down.sql", "migrations/003_c.down.sql", false, none⟩,
   ⟨"readme.txt", "migrations/readme.txt", false, none⟩]

/-- The locator output for `demoEntries`. -/
def demoResult : List Migration :=
  [⟨"001_a", "migrations/001_a.up.sql", some "migrations/001_a.down.sql"⟩,
   ⟨"002_b", "migrations/002_b.up.sql", none⟩]

/-- A walk listing with no migration files at all. -/
def plainEntries : List DirEntry :=
  [⟨"m", "m", true, none⟩, ⟨"readme.txt", "m/readme.txt", false, none⟩]

theorem data_eq_nil_iff (s : String) : s.data = [] ↔ s = "" := by
  constructor
  · intro h; exact String.ext h
  · intro h; rw [h]

theorem append_ne_empty_right (s t : String) (h : t.data ≠ []) : s ++ t ≠ "" := by
  intro he
  have hd : (s ++ t).data = [] := by rw [he]
  rw [String.data_append] at hd
  exact h (List.append_eq_nil.mp hd).2

theorem toUpperGo_ne_empty (s : String) (h : s ≠ "") : toUpperGo s ≠ "" := by
  intro he
  apply h
  rw [← data_eq_nil_iff] at he ⊢
  have : (toUpperGo s).data = s.data.map Char.toUpper := rfl
  rw [this] at he
  exact List.map_eq_nil_iff.mp he

theorem EndsIn.append_left (s t x : String) (h : EndsIn t x) : EndsIn (s ++ t) x := by
  obtain ⟨u, hu⟩ := h
  exact ⟨s ++ u, by rw [hu, String.append_assoc]⟩

theorem EndsIn.newline_newline (s : String) (h : EndsIn s "\n") :
    EndsIn (s ++ "\n") "\n\n" := by
  obtain ⟨u, hu⟩ := h
  refine ⟨u, ?_⟩
  rw [hu, String.append_assoc]
  rfl

theorem EndsIn_append_concatAll (s : String) (l : List String) (hs : EndsIn s "\n")
    (hl : ∀ x ∈ l, EndsIn x "\n") : EndsIn (s ++ concatAll l) "\n" := by
  induction l generalizing s with
  | nil => simpa [concatAll] using hs
  | cons x rest ih =>
    have hx : EndsIn x "\n" := hl x (List.mem_cons_self x rest)
    have : s ++ concatAll (x :: rest) = (s ++ x) ++ concatAll rest := by
      rw [concatAll, ← String.append_assoc]
    rw [this]
    exact ih (s ++ x) (EndsIn.append_left s x "\n" hx)
      (fun y hy => hl y (List.mem_cons_of_mem x hy))

theorem EndsIn_concatAll (l : List String) (z : String) (hne : l ≠ [])
    (hl : ∀ x ∈ l, EndsIn x z) : EndsIn (concatAll l) z := by
  induction l with
  | nil => exact absurd rfl hne
  | cons x rest ih =>
    cases rest with
    | nil =>
      have hx := hl x (List.mem_cons_self x [])
      simpa [concatAll] using hx
    | cons y t =>
      have : concatAll (x :: y :: t) = x ++ concatAll (y :: t) := rfl
      rw [this]
      exact EndsIn.append_left x _ z
        (ih (by simp) (fun w hw => hl w (List.mem_cons_of_mem x hw)))

theorem ltChars_iff_lex : ∀ x y : List Char, ltChars x y = true ↔ List.Lex (· < ·) x y := by
  intro x
  induction x with
  | nil =>
    intro y
    cases y with
    | nil => simp [ltChars]
    | cons b bs => simp [ltChars]; exact List.Lex.nil
  | cons a as ih =>
    intro y
    cases y with
    | nil => simp [ltChars]
    | cons b bs =>
      simp only [ltChars]
      by_cases hab : a < b
      · simp [hab]; exact List.Lex.rel hab
      · by_cases hba : b < a
        · simp [hab, hba]
          intro h
          cases h with
          | rel h => exact hab h
          | cons h => exact absurd hba (lt_irrefl a)
        · have heq : a = b := le_antisymm (le_of_not_lt hba) (le_of_not_lt hab)
          subst heq
          simp [hab, ih bs]
          constructor
          · intro h; exact List.Lex.cons h
          · intro h
            cases h with
            | rel h => exact absurd h hab
            | cons h => exact h

theorem lex_iff_lt (x y : List Char) : List.Lex (· < ·) x y ↔ x < y := Iff.rfl

/-- The model of Go string comparison agrees with the string order:
`ltStringGo b a = false` is exactly `a ≤ b`. -/
theorem ltStringGo_false_iff_le (a b : String) : ltStringGo b a = false ↔ a ≤ b := by
  rw [String.le_iff_toList_le, ← not_lt, ← lex_iff_lt, ← ltChars_iff_lex, Bool.not_eq_true]
  exact Iff.rfl

theorem le_of_ltStringGo (a b : String) (h : ltStringGo a b = true) : a ≤ b := by
  rw [String.le_iff_toList_le]
  exact le_of_lt ((lex_iff_lt _ _).mp ((ltChars_iff_lex _ _).mp h))

theorem mem_insertByName (m x : Migration) (l : List Migration) :
    x ∈ insertByName m l ↔ x = m ∨ x ∈ l := by
  induction l with
  | nil => simp [insertByName]
  | cons m0 rest ih =>
    simp only [insertByName]
    by_cases h : ltStringGo m0.Name m.Name = true
    · simp [h, ih]
      tauto
    · simp [h]

theorem perm_insertByName (m : Migration) (l : List Migration) :
    List.Perm (insertByName m l) (m :: l) := by
  induction l with
  | nil => simp [insertByName]
  | cons m0 rest ih =>
    simp only [insertByName]
    by_cases h : ltStringGo m0.Name m.Name = true
    · simp only [h, if_true]
      exact List.Perm.trans (ih.cons m0) (List.Perm.swap m m0 rest)
    · simp [h]

theorem perm_sortByName (l : List Migration) : List.Perm (sortByName l) l := by
  induction l with
  | nil => simp [sortByName]
  | cons m rest ih =>
    exact List.Perm.trans (perm_insertByName m (sortByName rest)) (ih.cons m)

theorem pairwise_insertByName (m : Migration) (l : List Migration)
    (hl : l.Pairwise (fun a b => a.Name ≤ b.Name)) :
    (insertByName m l).Pairwise (fun a b => a.Name ≤ b.Name) := by
  induction l with
  | nil => simp [insertByName]
  | cons m0 rest ih =>
    rw [List.pairwise_cons] at hl
    obtain ⟨hm0, hrest⟩ := hl
    simp only [insertByName]
    by_cases h : ltStringGo m0.Name m.Name = true
    · simp only [h, if_true]
      rw [List.pairwise_cons]
      refine ⟨?_, ih hrest⟩
      intro x hx
      rcases (mem_insertByName m x rest).mp hx with hxm | hxr
      · subst hxm; exact le_of_ltStringGo _ _ h
      · exact hm0 x hxr
    · have hfalse : ltStringGo m0.Name m.Name = false := Bool.eq_false_iff.mpr h
      have hle : m.Name ≤ m0.Name := (ltStringGo_false_iff_le m.Name m0.Name).mp hfalse
      rw [hfalse]
      simp only [Bool.false_eq_true, if_false]
      rw [List.pairwise_cons]
      constructor
      · intro x hx
        rcases List.mem_cons.mp hx with hxm | hxr
        · subst hxm; exact hle
        · exact le_trans hle (hm0 x hxr)
      · rw [List.pairwise_cons]
        exact ⟨hm0, hrest⟩

theorem pairwise_sortByName (l : List Migration) :
    (sortByName l).Pairwise (fun a b => a.Name ≤ b.Name) := by
  induction l with
  | nil => simp [sortByName]
  | cons m rest ih => exact pairwise_insertByName m (sortByName rest) ih

theorem lookup_insertMap (m : List (String × String)) (k v q : String) :
    lookupMap (insertMap m k v) q = if k = q then some v else lookupMap m q := by
  induction m with
  | nil => simp [insertMap, lookupMap]
  | cons kv rest ih =>
    obtain ⟨k0, v0⟩ := kv
    by_cases h0 : k0 = k
    · subst h0
      simp only [insertMap, if_pos rfl, lookupMap]
      by_cases hq : k0 = q
      · subst hq; simp
      · simp [hq]
    · simp only [insertMap, if_neg h0, lookupMap]
      by_cases hq : k0 = q
      · subst hq
        have hk : ¬ k = k0 := fun h => h0 h.symm
        simp [hk]
      · simp [hq, ih]

theorem mem_keys_insertMap (m : List (String × String)) (k v q : String) :
    q ∈ mapKeys (insertMap m k v) ↔ q = k ∨ q ∈ mapKeys m := by
  induction m with
  | nil => simp [insertMap, mapKeys]
  | cons kv rest ih =>
    obtain ⟨k0, v0⟩ := kv
    by_cases h0 : k0 = k
    · subst h0
      simp [insertMap, mapKeys]
    · simp only [insertMap, if_neg h0, mapKeys, List.map_cons, List.mem_cons]
      rw [mapKeys] at ih
      rw [ih]
      simp [mapKeys]
      tauto

theorem nodup_keys_insertMap (m : List (String × String)) (k v : String)
    (h : (mapKeys m).Nodup) : (mapKeys (insertMap m k v)).Nodup := by
  induction m with
  | nil => simp [insertMap, mapKeys]
  | cons kv rest ih =>
    obtain ⟨k0, v0⟩ := kv
    rw [mapKeys, List.map_cons, List.nodup_cons] at h
    obtain ⟨hnot, hrest⟩ := h
    by_cases h0 : k0 = k
    · subst h0
      simp only [insertMap, if_pos rfl, ite_true, mapKeys, List.map_cons, List.nodup_cons]
      simp only [mapKeys] at hnot hrest
      exact ⟨hnot, hrest⟩
    · simp only [insertMap, if_neg h0, mapKeys, List.map_cons, List.nodup_cons]
      constructor
      · intro hmem
        rcases (mem_keys_insertMap rest k v k0).mp hmem with h1 | h1
        · exact h0 h1
        · exact hnot h1
      · exact ih hrest

theorem lookup_isSome_iff_mem_keys (m : List (String × String)) (q : String) :
    (lookupMap m q).isSome = true ↔ q ∈ mapKeys m := by
  induction m with
  | nil => simp [lookupMap, mapKeys]
  | cons kv rest ih =>
    obtain ⟨k0, v0⟩ := kv
    by_cases hq : k0 = q
    · subst hq; simp [lookupMap, mapKeys]
    · simp [lookupMap, hq, mapKeys, ih]
      intro h
      exact absurd h.symm hq

theorem hasUpFile_cons (e : DirEntry) (rest : List DirEntry) (b : String) :
    hasUpFile (e :: rest) b ↔ (upEntry e = true ∧ upBase e = b) ∨ hasUpFile rest b := by
  simp [hasUpFile, List.exists_mem_cons_iff]

theorem hasDownFile_cons (e : DirEntry) (rest : List DirEntry) (b : String) :
    hasDownFile (e :: rest) b ↔ (downEntry e = true ∧ downBase e = b) ∨ hasDownFile rest b := by
  simp [hasDownFile, List.exists_mem_cons_iff]

theorem walkCollect_ok_up (entries : List DirEntry) (u d u2 d2 : List (String × String))
    (h : walkCollect entries (u, d) = .ok (u2, d2)) (b : String) :
    (lookupMap u2 b).isSome = true ↔
      ((lookupMap u b).isSome = true ∨ hasUpFile entries b) := by
  induction entries generalizing u d with
  | nil =>
    simp only [walkCollect, Except.ok.injEq, Prod.mk.injEq] at h
    obtain ⟨hu, _⟩ := h
    subst hu
    simp [hasUpFile]
  | cons e rest ih =>
    rw [walkCollect] at h
    cases her : e.err with
    | some msg => rw [her] at h; simp at h
    | none =>
      rw [her] at h
      simp only at h
      cases hdir : e.isDir with
      | true =>
        rw [hdir] at h
        simp only [if_true] at h
        rw [ih _ _ h, hasUpFile_cons]
        have : upEntry e = false := by simp [upEntry, hdir]
        simp [this]
      | false =>
        rw [hdir] at h
        simp only [Bool.false_eq_true, if_false] at h
        cases hup : endsWithGo e.name ".up.sql" with
        | true =>
          rw [hup] at h
          simp only [if_true] at h
          rw [ih _ _ h, hasUpFile_cons]
          have hcls : upEntry e = true := by simp [upEntry, hdir, hup]
          rw [lookup_insertMap]
          by_cases hb : upBase e = b
          · rw [upBase] at hb; simp [upBase, hb, hcls]
          · rw [upBase] at hb; simp [upBase, hb, hcls]
        | false =>
          rw [hup] at h
          simp only [Bool.false_eq_true, if_false] at h
          cases hdn : endsWithGo e.name ".down.sql" with
          | true =>
            rw [hdn] at h
            simp only [if_true] at h
            rw [ih _ _ h, hasUpFile_cons]
            have : upEntry e = false := by simp [upEntry, hup]
            simp [this]
          | false =>
            rw [hdn] at h
            simp only [Bool.false_eq_true, if_false] at h
            rw [ih _ _ h, hasUpFile_cons]
            have : upEntry e = false := by simp [upEntry, hup]
            simp [this]

theorem walkCollect_ok_down (entries : List DirEntry) (u d u2 d2 : List (String × String))
    (h : walkCollect entries (u, d) = .ok (u2, d2)) (b : String) :
    (lookupMap d2 b).isSome = true ↔
      ((lookupMap d b).isSome = true ∨ hasDownFile entries b) := by
  induction entries generalizing u d with
  | nil =>
    simp only [walkCollect, Except.ok.injEq, Prod.mk.injEq] at h
    obtain ⟨_, hd⟩ := h
    subst hd
    simp [hasDownFile]
  | cons e rest ih =>
    rw [walkCollect] at h
    cases her : e.err with
    | some msg => rw [her] at h; simp at h
    | none =>
      rw [her] at h
      simp only at h
      cases hdir : e.isDir with
      | true =>
        rw [hdir] at h
        simp only [if_true] at h
        rw [ih _ _ h, hasDownFile_cons]
        have : downEntry e = false := by simp [downEntry, hdir]
        simp [this]
      | false =>
        rw [hdir] at h
        simp only [Bool.false_eq_true, if_false] at h
        cases hup : endsWithGo e.name ".up.sql" with
        | true =>
          rw [hup] at h
          simp only [if_true] at h
          rw [ih _ _ h, hasDownFile_cons]
          have : downEntry e = false := by simp [downEntry, hup]
          simp [this]
        | false =>
          rw [hup] at h
          simp only [Bool.false_eq_true, if_false] at h
          cases hdn : endsWithGo e.name ".down.sql" with
          | true =>
            rw [hdn] at h
            simp only [if_true] at h
            rw [ih _ _ h, hasDownFile_cons]
            have hcls : downEntry e = true := by simp [downEntry, hdir, hup, hdn]
            rw [lookup_insertMap]
            by_cases hb : downBase e = b
            · rw [downBase] at hb; simp [downBase, hb, hcls]
            · rw [downBase] at hb; simp [downBase, hb, hcls]
          | false =>
            rw [hdn] at h
            simp only [Bool.false_eq_true, if_false] at h
            rw [ih _ _ h, hasDownFile_cons]
            have : downEntry e = false := by simp [downEntry, hdn]
            simp [this]

theorem walkCollect_ok_nodup (entries : List DirEntry) (u d u2 d2 : List (String × String))
    (h : walkCollect entries (u, d) = .ok (u2, d2)) (hu : (mapKeys u).Nodup) :
    (mapKeys u2).Nodup := by
  induction entries generalizing u d with
  | nil =>
    simp only [walkCollect, Except.ok.injEq, Prod.mk.injEq] at h
    obtain ⟨h1, _⟩ := h
    subst h1
    exact hu
  | cons e rest ih =>
    rw [walkCollect] at h
    cases her : e.err with
    | some msg => rw [her] at h; simp at h
    | none =>
      rw [her] at h
      simp only at h
      cases hdir : e.isDir with
      | true =>
        rw [hdir] at h
        simp only [if_true] at h
        exact ih _ _ h hu
      | false =>
        rw [hdir] at h
        simp only [Bool.false_eq_true, if_false] at h
        cases hup : endsWithGo e.name ".up.sql" with
        | true =>
          rw [hup] at h
          simp only [if_true] at h
          exact ih _ _ h (nodup_keys_insertMap u (upBase e) e.path hu)
        | false =>
          rw [hup] at h
          simp only [Bool.false_eq_true, if_false] at h
          cases hdn : endsWithGo e.name ".down.sql" with
          | true =>
            rw [hdn] at h
            simp only [if_true] at h
            exact ih _ _ h hu
          | false =>
            rw [hdn] at h
            simp only [Bool.false_eq_true, if_false] at h
            exact ih _ _ h hu

theorem sqlColumnAcc_eq (cols : List Column) (defs pks : List String) :
    sqlColumnAcc cols (defs, pks) =
      (defs ++ cols.map sqlColumnDef,
       pks ++ (cols.filter (·.IsPrimaryKey)).map (·.Name)) := by
  induction cols generalizing defs pks with
  | nil => simp [sqlColumnAcc]
  | cons col rest ih =>
    rw [sqlColumnAcc, ih]
    cases hpk : col.IsPrimaryKey with
    | true => simp [hpk, List.filter_cons]
    | false => simp [hpk, List.filter_cons]

theorem concatAll_decomp (l : List String) (x : String) (hx : x ∈ l) :
    ∃ p q, concatAll l = p ++ x ++ q := by
  induction l with
  | nil => cases hx
  | cons y rest ih =>
    rcases List.mem_cons.mp hx with h | h
    · subst h
      exact ⟨"", concatAll rest, by simp [concatAll]⟩
    · obtain ⟨p, q, hpq⟩ := ih h
      exact ⟨y ++ p, q, by simp [concatAll, hpq, String.append_assoc]⟩

theorem intercalateGo_decomp (sep : String) (l : List String) (x : String) (hx : x ∈ l) :
    ∃ p q, intercalateGo sep l = p ++ x ++ q := by
  induction l with
  | nil => cases hx
  | cons y rest ih =>
    cases rest with
    | nil =>
      rcases List.mem_cons.mp hx with h | h
      · subst h
        exact ⟨"", "", by simp [intercalateGo]⟩
      · cases h
    | cons z t =>
      rcases List.mem_cons.mp hx with h | h
      · subst h
        exact ⟨"", sep ++ intercalateGo sep (z :: t), by simp [intercalateGo, String.append_assoc]⟩
      · obtain ⟨p, q, hpq⟩ := ih h
        exact ⟨y ++ sep ++ p, q, by simp [intercalateGo, hpq, String.append_assoc]⟩

theorem mapDataType_default (col : Column) (h : col.DataType ∉ coveredTypes) :
    mapDataType col = toUpperGo col.DataType := by
  rw [mapDataType]
  split
  all_goals try rfl
  all_goals
    (exfalso; apply h; rename_i hx; rw [hx]; decide)

theorem mapDataType_ne_empty (col : Column) (hne : col.DataType ≠ "") :
    mapDataType col ≠ "" := by
  rw [mapDataType]
  split
  all_goals try split
  all_goals first
    | decide
    | (apply append_ne_empty_right; decide)
    | (exact toUpperGo_ne_empty _ hne)

theorem occurs_of_occurs_of_occurs (s m x : String) (h1 : Occurs s m) (h2 : Occurs m x) :
    Occurs s x := by
  obtain ⟨p1, q1, e1⟩ := h1
  obtain ⟨p2, q2, e2⟩ := h2
  exact ⟨p1 ++ p2, q2 ++ q1, by rw [e1, e2]; simp [String.append_assoc]⟩

theorem infoColumnLine_endsIn (col : Column) : EndsIn (infoColumnLine col) "\n" :=
  ⟨_, rfl⟩

theorem infoIndexLine_endsIn (idx : Index) : EndsIn (infoIndexLine idx) "\n" :=
  ⟨_, rfl⟩

theorem sqlIndexLine_endsIn (tn : String) (idx : Index) : EndsIn (sqlIndexLine tn idx) "\n" :=
  ⟨"create " ++ (if idx.IsUnique then "unique " else "") ++ "index "
    ++ idx.Name ++ " on " ++ tn ++ " (" ++ intercalateGo ", " idx.Columns ++ ");",
   by rw [sqlIndexLine]; simp [String.append_assoc]⟩

theorem formatTableInfo_endsIn (t : Table) : EndsIn (formatTableInfo t) "\n\n" := by
  rw [formatTableInfo]
  apply EndsIn.newline_newline
  have hcols : ∀ x ∈ t.Columns.map infoColumnLine, EndsIn x "\n" := by
    intro x hx
    obtain ⟨col, _, hc⟩ := List.mem_map.mp hx
    exact hc ▸ infoColumnLine_endsIn col
  cases hidx : t.Indexes.isEmpty with
  | true =>
    simp only [hidx, if_true, String.append_empty]
    apply EndsIn_append_concatAll _ _ _ hcols
    exact ⟨"Table: " ++ t.Name ++ "\n" ++ "Columns:", by simp [String.append_assoc]⟩
  | false =>
    simp only [hidx, Bool.false_eq_true, if_false]
    rw [← String.append_assoc]
    apply EndsIn_append_concatAll
    · exact ⟨"Table: " ++ t.Name ++ "\n" ++ "Columns:\n"
        ++ concatAll (t.Columns.map infoColumnLine) ++ "Indexes:",
        by simp [String.append_assoc]⟩
    · intro x hx
      obtain ⟨idx, _, hc⟩ := List.mem_map.mp hx
      exact hc ▸ infoIndexLine_endsIn idx

theorem formatTableSQL_decomp (t : Table) :
    ∃ u v, formatTableSQL t = u ++ "\n);\n\n" ++ v := by
  refine ⟨"create table " ++ t.Name ++ " (\n"
      ++ intercalateGo ",\n" (sqlColumnAcc t.Columns ([], [])).1
      ++ (if (sqlColumnAcc t.Columns ([], [])).2.isEmpty then ""
          else ",\n    primary key ("
            ++ intercalateGo ", " (sqlColumnAcc t.Columns ([], [])).2 ++ ")"),
    concatAll (t.Indexes.map (sqlIndexLine t.Name))
      ++ (if t.Indexes.isEmpty then "" else "\n"), ?_⟩
  rw [formatTableSQL]
  simp [String.append_assoc]

theorem formatTableSQL_endsIn (t : Table) : EndsIn (formatTableSQL t) "\n\n" := by
  rw [formatTableSQL]
  cases hidx : t.Indexes with
  | nil =>
    simp only [hidx, List.map_nil, List.isEmpty_nil, if_true, concatAll, String.append_empty]
    repeat apply EndsIn.append_left
    exact ⟨"\n);", rfl⟩
  | cons i0 irest =>
    simp only [hidx, List.isEmpty_cons, Bool.false_eq_true, if_false]
    apply EndsIn.newline_newline
    apply EndsIn_append_concatAll
    · repeat apply EndsIn.append_left
      exact ⟨"\n);\n", rfl⟩
    · intro x hx
      obtain ⟨idx, _, hc⟩ := List.mem_map.mp hx
      exact hc ▸ sqlIndexLine_endsIn t.Name idx

theorem parseMigrations_ok_elim (entries : List DirEntry) (result : List Migration)
    (h : ParseMigrations entries = .ok result) :
    ∃ ups downs, walkCollect entries ([], []) = .ok (ups, downs) ∧
      result = sortByName (ups.map fun p =>
        { Name := p.1, UpFile := p.2, DownFile := lookupMap downs p.1 : Migration }) := by
  rw [ParseMigrations] at h
  cases hw : walkCollect entries ([], []) with
  | error e => rw [hw] at h; simp at h
  | ok pair =>
    obtain ⟨ups, downs⟩ := pair
    rw [hw] at h
    simp only [Except.ok.injEq] at h
    exact ⟨ups, downs, rfl, h.symm⟩

theorem parse_ok_names (entries : List DirEntry) (result : List Migration)
    (h : ParseMigrations entries = .ok result) :
    (∀ b, b ∈ result.map (·.Name) ↔ hasUpFile entries b) ∧
    (result.map (·.Name)).Nodup ∧
    (∀ m ∈ result, (m.DownFile ≠ none ↔ hasDownFile entries m.Name)) := by
  obtain ⟨ups, downs, hw, hres⟩ := parseMigrations_ok_elim entries result h
  subst hres
  have hperm : List.Perm
      (sortByName (ups.map fun p =>
        { Name := p.1, UpFile := p.2, DownFile := lookupMap downs p.1 : Migration }))
      (ups.map fun p =>
        { Name := p.1, UpFile := p.2, DownFile := lookupMap downs p.1 : Migration }) :=
    perm_sortByName _
  have hnames : ((ups.map fun p =>
      { Name := p.1, UpFile := p.2, DownFile := lookupMap downs p.1 : Migration }).map
        (·.Name)) = mapKeys ups := by
    rw [List.map_map]; rfl
  refine ⟨?_, ?_, ?_⟩
  · intro b
    rw [List.Perm.mem_iff (hperm.map (·.Name)), hnames, ← lookup_isSome_iff_mem_keys,
      walkCollect_ok_up entries [] [] ups downs hw b]
    simp [lookupMap]
  · have hn : (mapKeys ups).Nodup :=
      walkCollect_ok_nodup entries [] [] ups downs hw (by simp [mapKeys])
    have h2 := hnames ▸ hn
    exact (List.Perm.nodup_iff (hperm.map (·.Name))).mpr h2
  · intro m hm
    have hm2 := hperm.mem_iff.mp hm
    obtain ⟨p, hp, hmk⟩ := List.mem_map.mp hm2
    have hdf : m.DownFile = lookupMap downs m.Name := by rw [← hmk]
    rw [hdf, Option.ne_none_iff_isSome,
      walkCollect_ok_down entries [] [] ups downs hw m.Name]
    simp [lookupMap]

theorem walkCollect_skip (entries : List DirEntry)
    (h : ∀ e ∈ entries, e.err = none ∧ (e.isDir = true ∨
      (endsWithGo e.name ".up.sql" = false ∧ endsWithGo e.name ".down.sql" = false))) :
    ∀ u d, walkCollect entries (u, d) = .ok (u, d) := by
  induction entries with
  | nil => intro u d; rfl
  | cons e rest ih =>
    intro u d
    obtain ⟨her, hcl⟩ := h e (List.mem_cons_self e rest)
    rw [walkCollect, her]
    simp only
    cases hdir : e.isDir with
    | true =>
      simp only [if_true]
      exact ih (fun x hx => h x (List.mem_cons_of_mem e hx)) u d
    | false =>
      rcases hcl with hd | ⟨hup, hdn⟩
      · rw [hdir] at hd; cases hd
      · simp only [Bool.false_eq_true, if_false, hup, hdn]
        exact ih (fun x hx => h x (List.mem_cons_of_mem e hx)) u d

/-- C2: the locator output is sorted by migration name: for any two
positions `i < j` of an `ok` result of `ParseMigrations`, the name at
`i` is at most the name at `j`. -/
theorem claim2_sorted_by_name (entries : List DirEntry) (result : List Migration)
    (h : ParseMigrations entries = .ok result) :
    ∀ i j (hi : i < result.length) (hj : j < result.length), i < j →
      (result.get ⟨i, hi⟩).Name ≤ (result.get ⟨j, hj⟩).Name := by
  obtain ⟨ups, downs, hw, hres⟩ := parseMigrations_ok_elim entries result h
  subst hres
  have hp := pairwise_sortByName (ups.map fun p =>
    { Name := p.1, UpFile := p.2, DownFile := lookupMap downs p.1 : Migration })
  intro i j hi hj hij
  exact List.pairwise_iff_get.mp hp ⟨i, hi⟩ ⟨j, hj⟩ hij

/-- C2 witness: on the demo listing the two migration names come out in
order. -/
theorem claim2_witness :
    (demoResult.get ⟨0, by decide⟩).Name ≤ (demoResult.get ⟨1, by decide⟩).Name :=
  claim2_sorted_by_name demoEntries demoResult rfl 0 1 (by decide) (by decide) (by decide)

/-- C3: an `ok` result of `ParseMigrations` has exactly one Migration per
base name carrying an up-file (membership iff an up-file exists, with no
duplicate names), and a Migration carries a down-path iff a down-file
with the same base name was discovered; down-only base names yield no
Migration. -/
theorem claim3_up_down_pairing (entries : List DirEntry) (result : List Migration)
    (h : ParseMigrations entries = .ok result) :
    (∀ b, ((∃ m ∈ result, m.Name = b) ↔ hasUpFile entries b)) ∧
    (result.map (·.Name)).Nodup ∧
    (∀ m ∈ result, (m.DownFile ≠ none ↔ hasDownFile entries m.Name)) := by
  obtain ⟨h1, h2, h3⟩ := parse_ok_names entries result h
  refine ⟨fun b => ?_, h2, h3⟩
  rw [← h1 b]
  exact (List.mem_map).symm

/-- C3 witness: on the demo listing, base `001_a` (up and down present)
is emitted with a down-path, base `002_b` (up only) without one, and the
down-only base `003_c` is not emitted. -/
theorem claim3_witness :
    ((∃ m ∈ demoResult, m.Name = "003_c") ↔ hasUpFile demoEntries "003_c") ∧
    (∀ m ∈ demoResult, (m.DownFile ≠ none ↔ hasDownFile demoEntries m.Name)) :=
  ⟨(claim3_up_down_pairing demoEntries demoResult rfl).1 "003_c",
   (claim3_up_down_pairing demoEntries demoResult rfl).2.2⟩

/-- C8: a listing whose files (non-directories) all end in neither
`.up.sql` nor `.down.sql`, walked without error, yields an empty result
and no error; this covers the empty directory. -/
theorem claim8_no_suffix_no_migrations (entries : List DirEntry)
    (h : ∀ e ∈ entries, e.err = none ∧ (e.isDir = true ∨
      (endsWithGo e.name ".up.sql" = false ∧ endsWithGo e.name ".down.sql" = false))) :
    ParseMigrations entries = .ok [] := by
  rw [ParseMigrations, walkCollect_skip entries h [] []]
  rfl

/-- C8 witness: a directory with only a `readme.txt` yields `ok []`. -/
theorem claim8_witness : ParseMigrations plainEntries = .ok [] :=
  claim8_no_suffix_no_migrations plainEntries (by decide)

/-- C9: the names of an `ok` result of `ParseMigrations` are pairwise
distinct, even when several walked files share a base name. -/
theorem claim9_no_duplicate_names (entries : List DirEntry) (result : List Migration)
    (h : ParseMigrations entries = .ok result) :
    (result.map (·.Name)).Nodup :=
  (parse_ok_names entries result h).2.1

/-- C9 witness: on a listing where the same base name appears as an
up-file in two subdirectories, a single migration comes out. -/
theorem claim9_witness :
    ((Mig2Schema.ParseMigrations
      [⟨"001_a.up.sql", "migrations/x/001_a.up.sql", false, none⟩,
       ⟨"001_a.up.sql", "migrations/y/001_a.up.sql", false, none⟩]) = .ok
        [⟨"001_a", "migrations/y/001_a.up.sql", none⟩]) ∧
    (([⟨"001_a", "migrations/y/001_a.up.sql", none⟩] : List Migration).map (·.Name)).Nodup :=
  ⟨rfl, claim9_no_duplicate_names
    [⟨"001_a.up.sql", "migrations/x/001_a.up.sql", false, none⟩,
     ⟨"001_a.up.sql", "migrations/y/001_a.up.sql", false, none⟩]
    [⟨"001_a", "migrations/y/001_a.up.sql", none⟩] rfl⟩

/-- C1 counterexample: the claim says `mapDataType` returns a non-empty
string for every `Column`, whatever its raw data-type string; but on the
column whose raw data-type string is empty, the default branch upper-cases
the empty string, and the result is empty. -/
theorem claim1_counterexample : mapDataType colEmptyType = "" := rfl

/-- C1 (amended): `mapDataType` is total; for any raw type string not
covered by a fixed mapping rule the result is the upper-cased echo of the
raw string; the result is non-empty whenever the raw data-type string is
itself non-empty (the upper-cased echo of the empty raw string is empty). -/
theorem claim1_type_mapper_total (col : Column) :
    (col.DataType ∉ coveredTypes → mapDataType col = toUpperGo col.DataType) ∧
    (col.DataType ≠ "" → mapDataType col ≠ "") :=
  ⟨mapDataType_default col, mapDataType_ne_empty col⟩

/-- C1 witness: the amended claim applied at the unknown raw type
`unknown_type` yields its upper-cased echo and a non-empty string. -/
theorem claim1_witness :
    mapDataType colUnknown = toUpperGo colUnknown.DataType ∧ mapDataType colUnknown ≠ "" :=
  ⟨(claim1_type_mapper_total colUnknown).1 (by decide),
   (claim1_type_mapper_total colUnknown).2 (by decide)⟩

/-- C4: for raw type `character varying`, `mapDataType` yields
`VARCHAR(n)` when a character length `n` is present and `VARCHAR(255)`
when none is. -/
theorem claim4_character_varying (col : Column) (h : col.DataType = "character varying") :
    (∀ n, col.CharacterLength = some n → mapDataType col = "VARCHAR(" ++ toString n ++ ")") ∧
    (col.CharacterLength = none → mapDataType col = "VARCHAR(255)") := by
  constructor
  · intro n hn
    simp [mapDataType, h, hn]
  · intro hn
    simp [mapDataType, h, hn]

/-- C4 witness: length 100 yields `VARCHAR(100)`; no length yields
`VARCHAR(255)`. -/
theorem claim4_witness :
    mapDataType colV100 = "VARCHAR(100)" ∧ mapDataType colVnone = "VARCHAR(255)" := by
  constructor
  · have h := (claim4_character_varying colV100 rfl).1 100 rfl
    rw [h]
    rfl
  · exact (claim4_character_varying colVnone rfl).2 rfl

/-- C5: each integer-like raw type maps to its fixed upper-case name, and
two columns with the same such raw type map identically regardless of
their length/precision/scale fields. -/
theorem claim5_integer_like (col : Column) (h : col.DataType ∈ integerLikeTypes) :
    mapDataType col = toUpperGo col.DataType ∧
    (∀ col2 : Column, col2.DataType = col.DataType → mapDataType col2 = mapDataType col) := by
  simp only [integerLikeTypes, List.mem_cons, List.not_mem_nil, or_false] at h
  rcases h with h | h | h | h | h | h | h | h | h | h <;>
    exact ⟨by simp [mapDataType, h]; decide,
           fun col2 h2 => by simp [mapDataType, h2, h]⟩

/-- C5 witness: the fixed `integer` mapping at a column with populated
length/precision/scale fields, unchanged from the plain column. -/
theorem claim5_witness :
    mapDataType colId = toUpperGo colId.DataType ∧ mapDataType colIdLen = mapDataType colId :=
  ⟨(claim5_integer_like colId (by decide)).1,
   (claim5_integer_like colId (by decide)).2 colIdLen rfl⟩

/-- C6: in SQL mode the table body carries a single trailing
`primary key (...)` clause, before `);`, listing exactly the
primary-key columns in declaration order when any exist, and no such
clause when none is a primary key. -/
theorem claim6_primary_key_clause (t : Table) :
    ((t.Columns.filter (·.IsPrimaryKey)).map (·.Name) ≠ [] →
      formatTableSQL t =
        "create table " ++ t.Name ++ " (\n"
          ++ intercalateGo ",\n" (t.Columns.map sqlColumnDef)
          ++ (",\n    primary key ("
              ++ intercalateGo ", " ((t.Columns.filter (·.IsPrimaryKey)).map (·.Name)) ++ ")")
          ++ "\n);\n\n"
          ++ concatAll (t.Indexes.map (sqlIndexLine t.Name))
          ++ (if t.Indexes.isEmpty then "" else "\n")) ∧
    ((t.Columns.filter (·.IsPrimaryKey)).map (·.Name) = [] →
      formatTableSQL t =
        "create table " ++ t.Name ++ " (\n"
          ++ intercalateGo ",\n" (t.Columns.map sqlColumnDef)
          ++ "\n);\n\n"
          ++ concatAll (t.Indexes.map (sqlIndexLine t.Name))
          ++ (if t.Indexes.isEmpty then "" else "\n")) := by
  constructor
  · intro hne
    rw [formatTableSQL]
    simp only [sqlColumnAcc_eq, List.nil_append]
    have : ((t.Columns.filter (·.IsPrimaryKey)).map (·.Name)).isEmpty = false := by
      cases hl : (t.Columns.filter (·.IsPrimaryKey)).map (·.Name) with
      | nil => exact absurd hl hne
      | cons a l => simp
    rw [this]
    simp [String.append_assoc]
  · intro hnil
    rw [formatTableSQL]
    simp only [sqlColumnAcc_eq, List.nil_append]
    rw [hnil]
    simp [String.append_assoc, concatAll]

/-- C6 witness: the demo table has primary key column `id`, and its SQL
body carries the `primary key (id)` clause before `);`. -/
theorem claim6_witness :
    formatTableSQL demoTable =
      "create table " ++ demoTable.Name ++ " (\n"
        ++ intercalateGo ",\n" (demoTable.Columns.map sqlColumnDef)
        ++ (",\n    primary key ("
            ++ intercalateGo ", " ((demoTable.Columns.filter (·.IsPrimaryKey)).map (·.Name)) ++ ")")
        ++ "\n);\n\n"
        ++ concatAll (demoTable.Indexes.map (sqlIndexLine demoTable.Name))
        ++ (if demoTable.Indexes.isEmpty then "" else "\n") :=
  (claim6_primary_key_clause demoTable).1 (by decide)

/-- C7: for every column of a table, the Info rendering of the table
contains the display type `mapDataType col` and the SQL rendering
contains its lower-casing `toLowerGo (mapDataType col)`: both renderers
print the one shared mapping, the SQL one lower-cased. -/
theorem claim7_shared_type_mapper (t : Table) (col : Column) (hc : col ∈ t.Columns) :
    Occurs (formatTableInfo t) (mapDataType col) ∧
    Occurs (formatTableSQL t) (toLowerGo (mapDataType col)) := by
  constructor
  · apply occurs_of_occurs_of_occurs _ (infoColumnLine col)
    · obtain ⟨p, q, hpq⟩ := concatAll_decomp (t.Columns.map infoColumnLine)
        (infoColumnLine col) (List.mem_map_of_mem infoColumnLine hc)
      refine ⟨"Table: " ++ t.Name ++ "\n" ++ "Columns:\n" ++ p,
        q ++ (if t.Indexes.isEmpty then ""
              else "Indexes:\n" ++ concatAll (t.Indexes.map infoIndexLine)) ++ "\n", ?_⟩
      rw [formatTableInfo, hpq]
      simp [String.append_assoc]
    · refine ⟨"  - " ++ col.Name ++ " ",
        " " ++ (if col.IsNullable then "NULL" else "NOT NULL")
          ++ (match col.DefaultValue with
              | some d => " DEFAULT " ++ d
              | none => "")
          ++ (if col.IsPrimaryKey then " (PRIMARY KEY)" else "") ++ "\n", ?_⟩
      rw [infoColumnLine]
      simp [String.append_assoc]
  · apply occurs_of_occurs_of_occurs _ (sqlColumnDef col)
    · obtain ⟨p, q, hpq⟩ := intercalateGo_decomp ",\n" (t.Columns.map sqlColumnDef)
        (sqlColumnDef col) (List.mem_map_of_mem sqlColumnDef hc)
      refine ⟨"create table " ++ t.Name ++ " (\n" ++ p,
        q ++ (if ((t.Columns.filter (·.IsPrimaryKey)).map (·.Name)).isEmpty then ""
              else ",\n    primary key ("
                ++ intercalateGo ", " ((t.Columns.filter (·.IsPrimaryKey)).map (·.Name)) ++ ")")
          ++ "\n);\n\n"
          ++ concatAll (t.Indexes.map (sqlIndexLine t.Name))
          ++ (if t.Indexes.isEmpty then "" else "\n"), ?_⟩
      rw [formatTableSQL]
      simp only [sqlColumnAcc_eq, List.nil_append]
      rw [hpq]
      simp [String.append_assoc]
    · refine ⟨"    " ++ col.Name ++ " ",
        (if col.IsNullable then "" else " not null")
          ++ (match col.DefaultValue with
              | some d => " default " ++ d
              | none => ""), ?_⟩
      rw [sqlColumnDef]
      simp [String.append_assoc]

/-- C7 witness: the varchar column of the demo table appears as
`VARCHAR(100)` in the Info rendering and as `varchar(100)` in the SQL
rendering. -/
theorem claim7_witness :
    Occurs (formatTableInfo demoTable) (mapDataType colV100) ∧
    Occurs (formatTableSQL demoTable) (toLowerGo (mapDataType colV100)) :=
  claim7_shared_type_mapper demoTable colV100 (by decide)

/-- C10: for a non-empty table sequence, every Info block ends with a
blank line, every SQL block carries a blank line right after its `);`,
and both full outputs end with a blank line. -/
theorem claim10_trailing_blank_lines (tables : List Table) (hne : tables ≠ []) :
    (∀ t ∈ tables, EndsIn (formatTableInfo t) "\n\n") ∧
    (∀ t ∈ tables, ∃ u v, formatTableSQL t = u ++ "\n);\n\n" ++ v) ∧
    EndsIn (FormatSchemaInfo tables) "\n\n" ∧
    EndsIn (FormatSchemaSQL tables) "\n\n" := by
  refine ⟨fun t _ => formatTableInfo_endsIn t, fun t _ => formatTableSQL_decomp t, ?_, ?_⟩
  · rw [FormatSchemaInfo]
    apply EndsIn_concatAll
    · simp [hne]
    · intro x hx
      obtain ⟨t, _, hc⟩ := List.mem_map.mp hx
      exact hc ▸ formatTableInfo_endsIn t
  · rw [FormatSchemaSQL]
    apply EndsIn_concatAll
    · simp [hne]
    · intro x hx
      obtain ⟨t, _, hc⟩ := List.mem_map.mp hx
      exact hc ▸ formatTableSQL_endsIn t

/-- C10 witness: both renderings of the demo table end with a blank
line. -/
theorem claim10_witness :
    EndsIn (FormatSchemaInfo [demoTable]) "\n\n" ∧
    EndsIn (FormatSchemaSQL [demoTable]) "\n\n" :=
  ⟨(claim10_trailing_blank_lines [demoTable] (by decide)).2.2.1,
   (claim10_trailing_blank_lines [demoTable] (by decide)).2.2.2⟩

end Mig2Schema
